import Mathlib

/-!
Shallow embedding of the two maintenance scripts of this repository:

* `scripts/pt/convert_mdx_to_md.py` — the renamer/reformatter: for every
  `*.mdx` file in a directory it extracts the first `date:` line matching
  `^date:\s*(\d{4}-\d{2}-\d{2})(?:\s+\d{2}:\d{2})?` (MULTILINE), rewrites that
  match to `date: <date>`, inserts a fixed author line when `author:` does not
  occur anywhere in the content, writes the result to
  `f"{date_only}-{filename.replace('.mdx','')}.md"` and deletes the original.

* `scripts/pt/tag-normalization.py` — the tag normalizer: for every `*.md` or
  `*.mdx` file it matches `^---\n(.*?)\n---\n` (DOTALL) at the start of the
  file, parses the front matter with `yaml.safe_load`, normalizes a `tags`
  list entry-wise with `" ".join(tag.strip().lower().split())` and, when the
  list changed, writes back `---\n` + dumped front matter + `\n---\n` + body.

Text is modelled as `List Char`.  Character classes (`\s`, `\d`, `str.lower`,
`str.splitlines` boundaries) are modelled on the code-point ranges the scripts
actually meet; `\d` and letter case are taken in the ASCII range.
The external `yaml` library is not code of this repository: its `safe_load`
and `safe_dump` are universally quantified function parameters (`parse`,
`dump`) over an ordered key/value front-matter carrier `YVal`.
-/

/-- Python whitespace for `\s`, `str.strip`, `str.split`:
space, tab, newline, carriage return, vertical tab, form feed. -/
def isPySpace (c : Char) : Bool :=
  c.toNat == 32 || c.toNat == 9 || c.toNat == 10 || c.toNat == 13 ||
    c.toNat == 11 || c.toNat == 12

/-- ASCII decimal digit, for the regex class `\d`. -/
def isDigitCh (c : Char) : Bool :=
  48 ≤ c.toNat && c.toNat ≤ 57

/-- Line boundaries of Python `str.splitlines`: LF, CR, VT, FF, FS, GS, RS,
NEL, LINE SEPARATOR, PARAGRAPH SEPARATOR (CRLF is handled as one boundary in
`splitlinesPy`). -/
def isLineBreakCh (c : Char) : Bool :=
  c.toNat == 10 || c.toNat == 13 || c.toNat == 11 || c.toNat == 12 ||
    c.toNat == 28 || c.toNat == 29 || c.toNat == 30 || c.toNat == 133 ||
    c.toNat == 8232 || c.toNat == 8233

/-- ASCII lowercasing of one character, for `str.lower`. -/
def lowerChar (c : Char) : Char :=
  if 65 ≤ c.toNat ∧ c.toNat ≤ 90 then Char.ofNat (c.toNat + 32) else c

/-- `pat` is a prefix of `l` (Python `str.startswith`). -/
def startsWithL : List Char → List Char → Bool
  | [], _ => true
  | _ :: _, [] => false
  | p :: ps, c :: cs => if p = c then startsWithL ps cs else false

/-- `pat` is a suffix of `l` (Python `str.endswith`). -/
def endsWithL (pat l : List Char) : Bool :=
  startsWithL pat.reverse l.reverse

/-- `pat` occurs as a contiguous substring of `l` (Python `pat in l`). -/
def containsSub (pat : List Char) : List Char → Bool
  | [] => startsWithL pat []
  | c :: t => startsWithL pat (c :: t) || containsSub pat t

/-- Python `str.strip()`: drop leading and trailing whitespace. -/
def pyStrip (l : List Char) : List Char :=
  ((l.dropWhile isPySpace).reverse.dropWhile isPySpace).reverse

/-- Worker for Python `str.split()` with no separator; `acc` holds the
current word, reversed. -/
def pySplitWsAux (acc : List Char) : List Char → List (List Char)
  | [] => if acc = [] then [] else [acc.reverse]
  | c :: rest =>
    if isPySpace c then
      if acc = [] then pySplitWsAux [] rest
      else acc.reverse :: pySplitWsAux [] rest
    else pySplitWsAux (c :: acc) rest

/-- Python `str.split()` with no separator: maximal whitespace-free words,
surrounding whitespace discarded, no empty words. -/
def pySplitWs (l : List Char) : List (List Char) :=
  pySplitWsAux [] l

/-- Python `" ".join(ws)`. -/
def joinSpace : List (List Char) → List Char
  | [] => []
  | [w] => w
  | w :: ws => w ++ ' ' :: joinSpace ws

/-- Python `"\n".join(ls)`. -/
def joinNl : List (List Char) → List Char
  | [] => []
  | [l] => l
  | l :: ls => l ++ '\n' :: joinNl ls

/-- `normalize_tag` of `tag-normalization.py` (lines 11-13):
`" ".join(tag.strip().lower().split())`. -/
def normalizeTag (t : List Char) : List Char :=
  joinSpace (pySplitWs (List.map lowerChar (pyStrip t)))

/-- Python `str.splitlines()`: split at every line boundary (CRLF counting as
one), boundaries not kept, no trailing empty line for a trailing boundary. -/
def splitlinesPy : List Char → List (List Char)
  | [] => []
  | '\r' :: '\n' :: rest => [] :: splitlinesPy rest
  | c :: rest =>
    if isLineBreakCh c then [] :: splitlinesPy rest
    else
      match splitlinesPy rest with
      | [] => [[c]]
      | l :: ls => (c :: l) :: ls

/-- The literal `"date:"`. -/
def dateColon : List Char := ['d', 'a', 't', 'e', ':']

/-- The literal `"date: "` used as the substitution text `f"date: {date_only}"`. -/
def dateSp : List Char := ['d', 'a', 't', 'e', ':', ' ']

/-- The literal `"author:"` of the membership test `"author:" in content`. -/
def authorColon : List Char := ['a', 'u', 't', 'h', 'o', 'r', ':']

/-- `AUTHOR_LINE` of `convert_mdx_to_md.py` (line 5). -/
def AUTHOR_LINE : List Char :=
  ['a', 'u', 't', 'h', 'o', 'r', ':', ' ', 'P', 'r', 'e', 'd', 'r', 'a', 'g',
   ' ', 'T', 'a', 's', 'e', 'v', 's', 'k', 'i']

/-- The literal `".mdx"`. -/
def mdxExt : List Char := ['.', 'm', 'd', 'x']

/-- The literal `".md"`. -/
def mdExt : List Char := ['.', 'm', 'd']

/-- Consume the literal `pat` at the head of `l`. -/
def dropPre : List Char → List Char → Option (List Char)
  | [], l => some l
  | _ :: _, [] => none
  | p :: ps, c :: cs => if p = c then dropPre ps cs else none

/-- Consume `\d{4}-\d{2}-\d{2}` (the regex group 1). -/
def takeDate : List Char → Option (List Char × List Char)
  | y1 :: y2 :: y3 :: y4 :: s1 :: m1 :: m2 :: s2 :: d1 :: d2 :: rest =>
    if isDigitCh y1 ∧ isDigitCh y2 ∧ isDigitCh y3 ∧ isDigitCh y4 ∧ s1 = '-' ∧
        isDigitCh m1 ∧ isDigitCh m2 ∧ s2 = '-' ∧ isDigitCh d1 ∧ isDigitCh d2 then
      some ([y1, y2, y3, y4, s1, m1, m2, s2, d1, d2], rest)
    else none
  | _ => none

/-- Consume `\d{2}:\d{2}` (the time of the regex's optional group). -/
def takeTime : List Char → Option (List Char × List Char)
  | a :: b :: c :: d :: e :: rest =>
    if isDigitCh a ∧ isDigitCh b ∧ c = ':' ∧ isDigitCh d ∧ isDigitCh e then
      some ([a, b, c, d, e], rest)
    else none
  | _ => none

/-- Match `date:\s*(\d{4}-\d{2}-\d{2})(?:\s+\d{2}:\d{2})?` at the head of `l`.
Returns `(span, group1, rest)` with `l = span ++ rest`.  The whitespace classes
`\s*`/`\s+` are disjoint from `\d`, so the greedy maximal munch below is the
backtracking regex semantics. -/
def matchDateAt (l : List Char) : Option (List Char × List Char × List Char) :=
  match dropPre dateColon l with
  | none => none
  | some l1 =>
    match takeDate (l1.dropWhile isPySpace) with
    | none => none
    | some (d, l3) =>
      match (if (l3.takeWhile isPySpace).isEmpty then none
             else takeTime (l3.dropWhile isPySpace)) with
      | some (t, l5) =>
        some (dateColon ++ l1.takeWhile isPySpace ++ d ++
          l3.takeWhile isPySpace ++ t, d, l5)
      | none => some (dateColon ++ l1.takeWhile isPySpace ++ d, d, l3)

/-- `date_regex.search`: leftmost match of the MULTILINE-anchored regex.
`atStart` records whether the current position starts the string or follows a
newline (the positions where `^` matches).  Returns `(pre, span, group1, post)`
with the whole string equal to `pre ++ span ++ post`. -/
def findDateAux : Bool → List Char → Option (List Char × List Char × List Char × List Char)
  | _, [] => none
  | atStart, c :: rest =>
    match (if atStart then matchDateAt (c :: rest) else none) with
    | some (span, d, post) => some ([], span, d, post)
    | none =>
      match findDateAux (c == '\n') rest with
      | some (pre, span, d, post) => some (c :: pre, span, d, post)
      | none => none

/-- `date_regex.search(content)` (line 18 of `convert_mdx_to_md.py`). -/
def findDate (content : List Char) :
    Option (List Char × List Char × List Char × List Char) :=
  findDateAux true content

/-- Lines 31-34 of `convert_mdx_to_md.py`: insert `AUTHOR_LINE` after the
first line that starts with `"date:"` (no insertion when no line does). -/
def insertAuthor : List (List Char) → List (List Char)
  | [] => []
  | l :: rest =>
    if startsWithL dateColon l then l :: AUTHOR_LINE :: rest
    else l :: insertAuthor rest

/-- The content transformation of `convert_mdx_to_md.py` (lines 18-35):
first `date:` match found (else the file is skipped), the match replaced by
`date: <date_only>` (`count=1`), then — only when `"author:"` occurs nowhere
in the substituted content — `splitlines`, author insertion, `"\n".join`.
Returns `(date_only, new_content)`. -/
def processContent (content : List Char) : Option (List Char × List Char) :=
  match findDate content with
  | none => none
  | some (pre, _span, d, post) =>
    let subbed := pre ++ dateSp ++ d ++ post
    if containsSub authorColon subbed then some (d, subbed)
    else some (d, joinNl (insertAuthor (splitlinesPy subbed)))

/-- `filename.replace(".mdx", "")` (line 38): every occurrence of `".mdx"`
is removed left to right, not only a trailing extension. -/
def removeMdxAll : List Char → List Char
  | [] => []
  | '.' :: 'm' :: 'd' :: 'x' :: rest => removeMdxAll rest
  | c :: rest => c :: removeMdxAll rest

/-- `new_filename = f"{date_only}-{base_name}.md"` (lines 38-39). -/
def newFilename (filename dte : List Char) : List Char :=
  dte ++ '-' :: (removeMdxAll filename ++ mdExt)

/-- A flat directory: an association list of file names to contents. -/
abbrev FsDir := List (List Char × List Char)

/-- Content of named file, if present. -/
def lookupFile : FsDir → List Char → Option (List Char)
  | [], _ => none
  | (n, c) :: rest, name => if n = name then some c else lookupFile rest name

/-- `open(path, "w")` + `write`: overwrite an existing entry or create one. -/
def writeFile : FsDir → List Char → List Char → FsDir
  | [], name, c => [(name, c)]
  | (n, c0) :: rest, name, c =>
    if n = name then (n, c) :: rest else (n, c0) :: writeFile rest name c

/-- `os.remove`. -/
def removeFile : FsDir → List Char → FsDir
  | [], _ => []
  | (n, c) :: rest, name =>
    if n = name then rest else (n, c) :: removeFile rest name

/-- One iteration of the `convert_mdx_to_md.py` loop on directory entry
`filename`: non-`.mdx` entries and contents with no date match leave the
directory unchanged; otherwise the new file is written and the original
removed.  (A name no longer present is modelled as a no-op; in a run over a
snapshot listing of distinct names it never occurs.) -/
def renamerStep (d : FsDir) (filename : List Char) : FsDir :=
  if endsWithL mdxExt filename then
    match lookupFile d filename with
    | none => d
    | some content =>
      match processContent content with
      | none => d
      | some (dte, newContent) =>
        removeFile (writeFile d (newFilename filename dte) newContent) filename
  else d

/-- The whole `convert_mdx_to_md.py` run: `os.listdir` snapshots the names,
then the loop processes them one by one. -/
def runRenamer (d : FsDir) : FsDir :=
  List.foldl renamerStep d (d.map Prod.fst)

/-- The parsed-front-matter value carrier: what `yaml.safe_load` produces for
the scalar/sequence/mapping shapes the scripts meet. -/
inductive YVal where
  | str (s : List Char)
  | intVal (n : Int)
  | boolVal (b : Bool)
  | nullVal
  | list (vs : List YVal)
  | dict (fields : List (List Char × YVal))

/-- An ordered front-matter mapping, as parsed (insertion order kept). -/
abbrev FrontMatter := List (List Char × YVal)

/-- The key `"tags"`. -/
def tagsKey : List Char := ['t', 'a', 'g', 's']

/-- Python `key in front_matter` / `front_matter[key]` on the ordered dict. -/
def lookupVal : FrontMatter → List Char → Option YVal
  | [], _ => none
  | (k, v) :: rest, key => if k = key then some v else lookupVal rest key

/-- Python `front_matter[key] = v`: replace in place at an existing key
(keeping its position), append otherwise. -/
def dictSet : FrontMatter → List Char → YVal → FrontMatter
  | [], key, v => [(key, v)]
  | (k, v0) :: rest, key, v =>
    if k = key then (k, v) :: rest else (k, v0) :: dictSet rest key v

/-- Whether a parsed value is a string. -/
def isStrVal : YVal → Bool
  | .str _ => true
  | _ => false

/-- The strings of a tag list; `none` when some element is not a string
(there `normalize_tag(t)` would raise `AttributeError`). -/
def tagStrings : List YVal → Option (List (List Char))
  | [] => some []
  | .str s :: rest =>
    match tagStrings rest with
    | none => none
    | some ss => some (s :: ss)
  | _ :: _ => none

/-- Outcome of lines 36-46 of `tag-normalization.py` on the parsed mapping. -/
inductive TagOutcome where
  | noTags
  | unchanged
  | typeError
  | rewritten (fm2 : FrontMatter)

/-- Lines 36-46 of `tag-normalization.py`: when a `tags` key holds a list,
normalize each entry (raising on a non-string entry), and rebuild the mapping
only when the normalized list differs from the original. -/
def processFrontMatter (fm : FrontMatter) : TagOutcome :=
  match lookupVal fm tagsKey with
  | some (.list vs) =>
    match tagStrings vs with
    | none => .typeError
    | some ss =>
      if List.map normalizeTag ss = ss then .unchanged
      else .rewritten
        (dictSet fm tagsKey (.list (List.map (fun s => YVal.str (normalizeTag s)) ss)))
  | some _ => .noTags
  | none => .noTags

/-- The literal `"---\n"`. -/
def fmMarker : List Char := ['-', '-', '-', '\n']

/-- The literal `"\n---\n"`. -/
def sepMarker : List Char := ['\n', '-', '-', '-', '\n']

/-- The lazy group of `^---\n(.*?)\n---\n`: split at the first occurrence of
`"\n---\n"`, returning the group text and the text after the whole match. -/
def splitFirstSep : List Char → Option (List Char × List Char)
  | [] => none
  | c :: rest =>
    if startsWithL sepMarker (c :: rest) then some ([], (c :: rest).drop 5)
    else
      match splitFirstSep rest with
      | none => none
      | some (g, body) => some (c :: g, body)

/-- `FRONT_MATTER_RE.match(content)` (lines 9 and 23 of
`tag-normalization.py`): anchored at the start of the file.  Returns
`(group1, content-after-match)`. -/
def matchFrontMatter (content : List Char) : Option (List Char × List Char) :=
  if startsWithL fmMarker content then splitFirstSep (content.drop 4)
  else none

/-- Per-file outcome of the `tag-normalization.py` loop body. -/
inductive FileOutcome where
  | skippedNoMarker
  | skippedParseError
  | noWrite
  | written (newContent : List Char)
  | crashed

/-- `filename.endswith(".md") or filename.endswith(".mdx")` (line 16). -/
def isTargetFile (name : List Char) : Bool :=
  endsWithL mdExt name || endsWithL mdxExt name

/-- Lines 23-50 of `tag-normalization.py` on one file's content.  `parse`
stands for `yaml.safe_load` on the front-matter block (`none` = exception,
caught as a skip) and `dump` for `yaml.safe_dump(..., sort_keys=False).strip()`;
both belong to the external `yaml` library, so the theorems quantify over
them.  The rebuilt content is
`f"---\n{new_front_matter_str}\n---\n" + content[match.end():]`. -/
def normalizeFile (parse : List Char → Option FrontMatter)
    (dump : FrontMatter → List Char) (content : List Char) : FileOutcome :=
  match matchFrontMatter content with
  | none => .skippedNoMarker
  | some (fmStr, body) =>
    match parse fmStr with
    | none => .skippedParseError
    | some fm =>
      match processFrontMatter fm with
      | .noTags => .noWrite
      | .unchanged => .noWrite
      | .typeError => .crashed
      | .rewritten fm2 => .written (fmMarker ++ dump fm2 ++ sepMarker ++ body)

/-- One iteration of the `tag-normalization.py` loop on directory entry
`name`: `none` models the run dying on an uncaught exception. -/
def normalizerStep (parse : List Char → Option FrontMatter)
    (dump : FrontMatter → List Char) (d : FsDir) (name : List Char) :
    Option FsDir :=
  if isTargetFile name then
    match lookupFile d name with
    | none => some d
    | some content =>
      match normalizeFile parse dump content with
      | .written newContent => some (writeFile d name newContent)
      | .crashed => none
      | _ => some d
  else some d

/-- The `tag-normalization.py` loop over a snapshot listing. -/
def runNormalizerAux (parse : List Char → Option FrontMatter)
    (dump : FrontMatter → List Char) : FsDir → List (List Char) → Option FsDir
  | d, [] => some d
  | d, n :: rest =>
    match normalizerStep parse dump d n with
    | none => none
    | some d2 => runNormalizerAux parse dump d2 rest

/-- The whole `tag-normalization.py` run. -/
def runNormalizer (parse : List Char → Option FrontMatter)
    (dump : FrontMatter → List Char) (d : FsDir) : Option FsDir :=
  runNormalizerAux parse dump d (d.map Prod.fst)

/-- A `yaml.safe_load` instance returning a fixed mapping (used to
instantiate the parse-parameterized theorems at concrete inputs). -/
def parseConst (fm : FrontMatter) : List Char → Option FrontMatter :=
  fun _ => some fm

/-- A `yaml.safe_load` instance that always fails (raises). -/
def parseNone : List Char → Option FrontMatter :=
  fun _ => none

/-- A `yaml.safe_dump` instance returning a fixed serialization. -/
def dumpConst (s : List Char) : FrontMatter → List Char :=
  fun _ => s

/-- The key `"title"`. -/
def titleKey : List Char := "title".data

/-- Spec example 1, input file name. -/
def ex1Name : List Char := "2024-01-05-post.mdx".data

/-- Spec example 1, input content. -/
def ex1Content : List Char :=
  "---\ntitle: Hello\ndate: 2024-01-05 10:00\n---\n\nSome body text.\n".data

/-- The output name the spec example claims. -/
def ex1NameClaimed : List Char := "2024-01-05-post.md".data

/-- The output name the code produces (the date prefix is prepended to the
full original stem, which already carries the date). -/
def ex1OutName : List Char := "2024-01-05-2024-01-05-post.md".data

/-- The output content the code produces for spec example 1 (the trailing
newline is dropped by the `splitlines`/`join` round trip of the author
insertion). -/
def ex1OutContent : List Char :=
  "---\ntitle: Hello\ndate: 2024-01-05\nauthor: Predrag Tasevski\n---\n\nSome body text.".data

/-- The rewritten date line immediately followed by the author line. -/
def ex1DatePair : List Char :=
  "date: 2024-01-05\nauthor: Predrag Tasevski".data

/-- A file name containing `".mdx"` twice. -/
def c2Name : List Char := "a.mdx.mdx".data

/-- A minimal dated content. -/
def c2Content : List Char := "date: 2024-01-05\n".data

/-- What `c2Content` becomes (identity substitution, then author insertion). -/
def c2OutContent : List Char :=
  "date: 2024-01-05\nauthor: Predrag Tasevski".data

/-- The name the code produces for `c2Name`: both `".mdx"` occurrences gone. -/
def c2OutActualName : List Char := "2024-01-05-a.md".data

/-- The name the filename-convention claim predicts for `c2Name`
(`<date>-<stem>.md` with only the final extension removed). -/
def c2OutClaimedName : List Char := "2024-01-05-a.mdx.md".data

/-- The date string of the examples. -/
def exDate : List Char := "2024-01-05".data

/-- A content whose first `date:`-prefixed line is not the regex match. -/
def c4Content : List Char := "date: x\ndate: 2024-01-05\n".data

/-- What the code produces for `c4Content`: the author line lands after the
non-matching `date: x` line, not after the matched date line. -/
def c4OutActual : List Char :=
  "date: x\nauthor: Predrag Tasevski\ndate: 2024-01-05".data

/-- What the claim predicts for `c4Content`: insertion immediately after the
matched line. -/
def c4OutClaimed : List Char :=
  "date: x\ndate: 2024-01-05\nauthor: Predrag Tasevski".data

/-- A plain dated document without author. -/
def c4wContent : List Char := "date: 2024-01-05\nbody".data

/-- The body line of `c4wContent`. -/
def c4wBody : List Char := "body".data

/-- The date line of `c4wContent` after substitution. -/
def dateLineEx : List Char := "date: 2024-01-05".data

/-- A dated document with a time of day and a body. -/
def c5Content : List Char := "date: 2024-01-05 10:00\nbody text".data

/-- The span the regex matches in `c5Content`. -/
def c5Span : List Char := "date: 2024-01-05 10:00".data

/-- The text after the matched span in `c5Content`. -/
def c5Post : List Char := "\nbody text".data

/-- A front matter with a title and a non-normalized tag list. -/
def fm3 : FrontMatter :=
  [(titleKey, YVal.str "x".data),
   (tagsKey, YVal.list [YVal.str "DevOps".data])]

/-- A tag-normalizer input document for `fm3`. -/
def content3 : List Char := "---\ntitle: x\ntags:\n- DevOps\n---\nbody\n".data

/-- The front-matter group of `content3`. -/
def fmStr3 : List Char := "title: x\ntags:\n- DevOps".data

/-- The body of `content3`. -/
def body3 : List Char := "body\n".data

/-- A serialization for the rewritten `fm3`. -/
def dumped3 : List Char := "title: x\ntags:\n- devops".data

/-- A front matter whose tag list is already normalized. -/
def fm6 : FrontMatter := [(tagsKey, YVal.list [YVal.str "devops".data])]

/-- A tag-normalizer input document for `fm6`. -/
def content6 : List Char := "---\ntags:\n- devops\n---\nb".data

/-- A front matter whose tag list holds a non-string element. -/
def fm9 : FrontMatter := [(tagsKey, YVal.list [YVal.intVal 2024])]

/-- A tag-normalizer input document for `fm9`. -/
def content9 : List Char := "---\ntags:\n- 2024\n---\nb".data

/-- File names for the runs of the error-path witnesses. -/
def name8 : List Char := "a.md".data

/-- A document with no front-matter marker and no date line. -/
def content8 : List Char := "hello world\n".data

/-- A document whose body mentions `author:` while the front matter has
none. -/
def c10Content : List Char :=
  "date: 2024-01-05 09:30\ntext author: body mention\n".data

/-- `c10Content` after the date substitution: untouched except the time. -/
def c10Out : List Char :=
  "date: 2024-01-05\ntext author: body mention\n".data

/-- A plain stem without `".mdx"` inside. -/
def postStem : List Char := "post".data

/-- The `".mdx"`-suffixed variant of `name8`. -/
def name8x : List Char := "a.mdx".data

/-- The non-matching first date line of `c4Content`. -/
def dateXLine : List Char := "date: x".data

/-- The text after the newline in `c5Post`. -/
def c5PostTail : List Char := "body text".data

/-- The span the regex matches in `c10Content`. -/
def c10Span : List Char := "date: 2024-01-05 09:30".data

/-- The text after the matched span in `c10Content`. -/
def c10Post : List Char := "\ntext author: body mention\n".data

/-- `fm3` after tag normalization. -/
def fm3N : FrontMatter :=
  [(titleKey, YVal.str "x".data),
   (tagsKey, YVal.list [YVal.str "devops".data])]

/-- The tag `"DevOps"`. -/
def devOpsTag : List Char := "DevOps".data

/-- The tag `"  Cloud Security "`. -/
def cloudTag : List Char := "  Cloud Security ".data

/-- The normalized `"devops"`. -/
def devOpsNorm : List Char := "devops".data

/-- The normalized `"cloud security"`. -/
def cloudNorm : List Char := "cloud security".data


/-- The front-matter group of `content6`. -/
def fmStr6 : List Char := "tags:\n- devops".data

/-- The body of `content6`. -/
def body6 : List Char := "b".data


theorem startsWithL_append_self (p r : List Char) :
    startsWithL p (p ++ r) = true := by
  induction p with
  | nil => simp [startsWithL]
  | cons c cs ih => simp [startsWithL, ih]

theorem startsWithL_eq_append {p l : List Char} (h : startsWithL p l = true) :
    ∃ r, l = p ++ r := by
  induction p generalizing l with
  | nil => exact ⟨l, rfl⟩
  | cons c cs ih =>
    cases l with
    | nil => simp [startsWithL] at h
    | cons x xs =>
      simp only [startsWithL] at h
      split at h
      · obtain ⟨r, hr⟩ := ih h
        rename_i he
        exact ⟨r, by simp [← he, hr]⟩
      · exact absurd h (by simp)

theorem endsWithL_append_self (s p : List Char) :
    endsWithL p (s ++ p) = true := by
  unfold endsWithL
  rw [List.reverse_append]
  exact startsWithL_append_self _ _

theorem startsWithL_of_append {p x y : List Char}
    (h : startsWithL p (x ++ y) = true) (hl : p.length ≤ x.length) :
    startsWithL p x = true := by
  induction p generalizing x with
  | nil => simp [startsWithL]
  | cons c cs ih =>
    cases x with
    | nil => simp at hl
    | cons a as =>
      simp only [List.cons_append, startsWithL] at h ⊢
      split at h
      · split
        · exact ih h (by simpa using hl)
        · simp_all
      · exact absurd h (by simp)

theorem dropPre_spec {p l r : List Char} (h : dropPre p l = some r) :
    l = p ++ r := by
  induction p generalizing l with
  | nil => simp [dropPre] at h; simp [h]
  | cons c cs ih =>
    cases l with
    | nil => simp [dropPre] at h
    | cons x xs =>
      simp only [dropPre] at h
      split at h
      · rename_i he
        simp [← he, ih h]
      · simp at h

theorem takeDate_spec {l d rest : List Char} (h : takeDate l = some (d, rest)) :
    l = d ++ rest ∧ ∀ c ∈ d, isDigitCh c = true ∨ c = '-' := by
  unfold takeDate at h
  split at h
  · split at h
    · rename_i hc
      injection h with hp
      injection hp with h1 h2
      subst h1 h2
      refine ⟨rfl, ?_⟩
      intro c hc'
      simp only [List.mem_cons, List.not_mem_nil, or_false] at hc'
      rcases hc' with rfl | rfl | rfl | rfl | rfl | rfl | rfl | rfl | rfl | rfl <;>
        tauto
    · simp at h
  · simp at h

theorem takeTime_spec {l t rest : List Char} (h : takeTime l = some (t, rest)) :
    l = t ++ rest := by
  unfold takeTime at h
  split at h
  · split at h
    · injection h with hp
      injection hp with h1 h2
      subst h1 h2
      rfl
    · simp at h
  · simp at h

theorem matchDateAt_spec {l span d rest : List Char}
    (h : matchDateAt l = some (span, d, rest)) :
    l = span ++ rest ∧ ∀ c ∈ d, isDigitCh c = true ∨ c = '-' := by
  unfold matchDateAt at h
  split at h
  · simp at h
  · rename_i l1 hdrop
    split at h
    · simp at h
    · rename_i d' l3 hdate
      have hl1 : l1 = l1.takeWhile isPySpace ++ (d' ++ l3) := by
        conv_lhs => rw [← List.takeWhile_append_dropWhile isPySpace l1]
        rw [(takeDate_spec hdate).1]
      split at h
      · rename_i t l5 htime
        split at htime
        · simp at htime
        · have hl3 : l3 = l3.takeWhile isPySpace ++ (t ++ l5) := by
            conv_lhs => rw [← List.takeWhile_append_dropWhile isPySpace l3]
            rw [takeTime_spec htime]
          injection h with hp
          injection hp with h1 hp2
          injection hp2 with h2 h3
          subst h1 h2 h3
          refine ⟨?_, (takeDate_spec hdate).2⟩
          conv_lhs => rw [dropPre_spec hdrop, hl1, hl3]
          simp [List.append_assoc]
      · injection h with hp
        injection hp with h1 hp2
        injection hp2 with h2 h3
        subst h1 h2 h3
        refine ⟨?_, (takeDate_spec hdate).2⟩
        conv_lhs => rw [dropPre_spec hdrop, hl1]
        simp [List.append_assoc]

theorem findDateAux_spec {b : Bool} {l : List Char} :
    ∀ {pre span d post : List Char}, findDateAux b l = some (pre, span, d, post) →
      l = pre ++ span ++ post ∧
        ((pre = [] ∧ b = true) ∨ ∃ p', pre = p' ++ ['\n']) ∧
        ∀ c ∈ d, isDigitCh c = true ∨ c = '-' := by
  induction b, l using findDateAux.induct with
  | case1 b' =>
    intro pre span d post h
    simp [findDateAux] at h
  | case2 atStart c rest span' d' post' hm =>
    intro pre span d post h
    rw [findDateAux, hm] at h
    injection h with hp
    injection hp with h1 hp2
    injection hp2 with h2 hp3
    injection hp3 with h3 h4
    subst h1 h2 h3 h4
    have hstart : atStart = true := by
      by_contra hb
      simp [eq_false_of_ne_true hb] at hm
    rw [hstart] at hm
    simp only [if_true] at hm
    obtain ⟨hsp, hch⟩ := matchDateAt_spec hm
    exact ⟨by simpa using hsp, Or.inl ⟨rfl, hstart⟩, hch⟩
  | case3 atStart c rest hm pre' span' d' post' hrec ih =>
    intro pre span d post h
    rw [findDateAux, hm, hrec] at h
    injection h with hp
    injection hp with h1 hp2
    injection hp2 with h2 hp3
    injection hp3 with h3 h4
    subst h2 h3 h4
    obtain ⟨hsp, hpre, hch⟩ := ih hrec
    subst h1
    refine ⟨by simp [hsp], ?_, hch⟩
    rcases hpre with ⟨hnil, hb⟩ | ⟨p', hp'⟩
    · subst hnil
      right
      refine ⟨[], ?_⟩
      have hc : c = '\n' := by simpa using hb
      simp [hc]
    · right
      exact ⟨c :: p', by simp [hp']⟩
  | case4 atStart c rest hm hrec ih =>
    intro pre span d post h
    rw [findDateAux, hm, hrec] at h
    exact absurd h (by simp)

theorem findDate_spec {content pre span d post : List Char}
    (h : findDate content = some (pre, span, d, post)) :
    content = pre ++ span ++ post ∧
      (pre = [] ∨ ∃ p', pre = p' ++ ['\n']) ∧
      ∀ c ∈ d, isDigitCh c = true ∨ c = '-' := by
  obtain ⟨h1, h2, h3⟩ := findDateAux_spec h
  exact ⟨h1, by tauto, h3⟩

theorem splitlinesPy_cons_nonbreak {c : Char} {rest : List Char}
    (hc : isLineBreakCh c = false) :
    splitlinesPy (c :: rest) =
      match splitlinesPy rest with
      | [] => [[c]]
      | l :: ls => (c :: l) :: ls := by
  have hcr : ∀ (rest1 : List Char), c = '\r' → rest = '\n' :: rest1 → False := by
    intro rest1 hc' _
    subst hc'
    exact absurd hc (by decide)
  rw [splitlinesPy.eq_3 c rest hcr, if_neg (by simp [hc])]

theorem splitlinesPy_ne_nil {l : List Char} (h : l ≠ []) :
    splitlinesPy l ≠ [] := by
  induction l using splitlinesPy.induct with
  | case1 => exact absurd rfl h
  | case2 rest ih => simp [splitlinesPy]
  | case3 c rest hcr hc ih => rw [splitlinesPy.eq_3 c rest hcr, if_pos hc]; simp
  | case4 c rest hcr hc hnil ih =>
    rw [splitlinesPy.eq_3 c rest hcr, if_neg hc, hnil]
    simp
  | case5 c rest hcr hc l' ls' hcons ih =>
    rw [splitlinesPy.eq_3 c rest hcr, if_neg hc, hcons]
    simp

theorem splitlinesPy_append_nl (p r : List Char) :
    splitlinesPy (p ++ '\n' :: r) = splitlinesPy (p ++ ['\n']) ++ splitlinesPy r := by
  induction p using splitlinesPy.induct with
  | case1 =>
    have h1 : splitlinesPy ('\n' :: r) = [] :: splitlinesPy r := by
      rw [splitlinesPy.eq_3 _ _ (by intro _ h _; exact absurd h (by decide)),
        if_pos (by decide)]
    have h2 : splitlinesPy ['\n'] = [[]] := by decide
    simp [h1, h2]
  | case2 rest ih =>
    simp only [List.cons_append, splitlinesPy.eq_2]
    simp [ih]
  | case3 c rest hcr hc ih =>
    by_cases hr : c = '\r' ∧ rest = []
    · obtain ⟨hc', hrest⟩ := hr
      subst hc' hrest
      simp [splitlinesPy]
    · have hcr2 : ∀ (rest1 : List Char), c = '\r' →
          rest ++ '\n' :: r = '\n' :: rest1 → False := by
        intro rest1 hc' happ
        subst hc'
        cases rest with
        | nil => exact hr ⟨rfl, rfl⟩
        | cons a as =>
          have : a = '\n' := by simpa using congrArg (fun x => x.headI) happ
          exact hcr as rfl (by simp [this])
      have hcr3 : ∀ (rest1 : List Char), c = '\r' →
          rest ++ ['\n'] = '\n' :: rest1 → False := by
        intro rest1 hc' happ
        subst hc'
        cases rest with
        | nil => exact hr ⟨rfl, rfl⟩
        | cons a as =>
          have : a = '\n' := by simpa using congrArg (fun x => x.headI) happ
          exact hcr as rfl (by simp [this])
      rw [List.cons_append, splitlinesPy.eq_3 c _ hcr2, if_pos hc,
        List.cons_append, splitlinesPy.eq_3 c _ hcr3, if_pos hc]
      simp [ih]
  | case4 c rest hcr hc hnil ih =>
    have hc' : isLineBreakCh c = false := eq_false_of_ne_true hc
    rw [List.cons_append, splitlinesPy_cons_nonbreak hc',
      List.cons_append, splitlinesPy_cons_nonbreak hc', ih]
    have hne : splitlinesPy (rest ++ ['\n']) ≠ [] :=
      splitlinesPy_ne_nil (by simp)
    cases hsp : splitlinesPy (rest ++ ['\n']) with
    | nil => exact absurd hsp hne
    | cons l' ls' => simp
  | case5 c rest hcr hc l0 ls0 hcons ih =>
    have hc' : isLineBreakCh c = false := eq_false_of_ne_true hc
    rw [List.cons_append, splitlinesPy_cons_nonbreak hc',
      List.cons_append, splitlinesPy_cons_nonbreak hc', ih]
    have hne : splitlinesPy (rest ++ ['\n']) ≠ [] :=
      splitlinesPy_ne_nil (by simp)
    cases hsp : splitlinesPy (rest ++ ['\n']) with
    | nil => exact absurd hsp hne
    | cons l' ls' => simp

theorem splitlinesPy_breakfree_nl {x : List Char}
    (hx : ∀ c ∈ x, isLineBreakCh c = false) :
    splitlinesPy (x ++ ['\n']) = [x] := by
  induction x with
  | nil => decide
  | cons c x' ih =>
    have hc : isLineBreakCh c = false := hx c (by simp)
    rw [List.cons_append, splitlinesPy_cons_nonbreak hc,
      ih (fun a ha => hx a (by simp [ha]))]

theorem splitlinesPy_breakfree {x : List Char} (hne : x ≠ [])
    (hx : ∀ c ∈ x, isLineBreakCh c = false) :
    splitlinesPy x = [x] := by
  induction x with
  | nil => exact absurd rfl hne
  | cons c x' ih =>
    have hc : isLineBreakCh c = false := hx c (by simp)
    rw [splitlinesPy_cons_nonbreak hc]
    cases hx' : x' with
    | nil => simp [hx', splitlinesPy]
    | cons a as =>
      rw [← hx', ih (by simp [hx']) (fun a ha => hx a (by simp [ha]))]

theorem splitlinesPy_breakfree_head {x r : List Char} (hne : x ≠ [])
    (hx : ∀ c ∈ x, isLineBreakCh c = false) :
    ∃ w ls, splitlinesPy (x ++ r) = (x ++ w) :: ls := by
  induction x with
  | nil => exact absurd rfl hne
  | cons c x' ih =>
    have hc : isLineBreakCh c = false := hx c (by simp)
    rw [List.cons_append, splitlinesPy_cons_nonbreak hc]
    cases hx' : x' with
    | nil =>
      cases hsp : splitlinesPy r with
      | nil => exact ⟨[], [], by simp [hsp]⟩
      | cons l' ls' => exact ⟨l', ls', by simp [hsp]⟩
    | cons a as =>
      rw [← hx']
      obtain ⟨w, ls, hw⟩ := ih (by simp [hx']) (fun a ha => hx a (by simp [ha]))
      rw [hw]
      exact ⟨w, ls, by simp⟩

theorem exists_first_split {α : Type} (p : α → Bool) (ls : List α)
    (h : ∃ l ∈ ls, p l = true) :
    ∃ A dl B, ls = A ++ dl :: B ∧ (∀ a ∈ A, p a = false) ∧ p dl = true := by
  induction ls with
  | nil => simp at h
  | cons x xs ih =>
    by_cases hp : p x = true
    · exact ⟨[], x, xs, rfl, by simp, hp⟩
    · obtain ⟨l, hl, hpl⟩ := h
      rcases List.mem_cons.mp hl with rfl | hl'
      · exact absurd hpl hp
      · obtain ⟨A, dl, B, h1, h2, h3⟩ := ih ⟨l, hl', hpl⟩
        refine ⟨x :: A, dl, B, by simp [h1], ?_, h3⟩
        intro a ha
        rcases List.mem_cons.mp ha with rfl | ha'
        · exact eq_false_of_ne_true hp
        · exact h2 a ha'

theorem insertAuthor_split {A B : List (List Char)} {dl : List Char}
    (hA : ∀ a ∈ A, startsWithL dateColon a = false)
    (hdl : startsWithL dateColon dl = true) :
    insertAuthor (A ++ dl :: B) = A ++ dl :: AUTHOR_LINE :: B := by
  induction A with
  | nil => simp [insertAuthor, hdl]
  | cons a as ih =>
    have ha : startsWithL dateColon a = false := hA a (by simp)
    simp only [List.cons_append, insertAuthor, ha, List.append_eq]
    rw [if_neg (by simp), ih (fun x hx => hA x (by simp [hx]))]

theorem insertAuthor_mem {l : List Char} {ls : List (List Char)} (h : l ∈ ls) :
    l ∈ insertAuthor ls := by
  induction ls with
  | nil => simp at h
  | cons a as ih =>
    simp only [insertAuthor]
    split
    · rcases List.mem_cons.mp h with rfl | h' <;> simp [*]
    · rcases List.mem_cons.mp h with rfl | h' <;> simp [ih, *]

theorem joinNl_mem_split {l : List Char} {ls : List (List Char)} (h : l ∈ ls) :
    ∃ X Y, joinNl ls = X ++ l ++ Y ∧
      (X = [] ∨ ∃ X', X = X' ++ ['\n']) ∧ (Y = [] ∨ ∃ Y', Y = '\n' :: Y') := by
  induction ls with
  | nil => simp at h
  | cons a as ih =>
    rcases List.mem_cons.mp h with rfl | h'
    · cases as with
      | nil => exact ⟨[], [], by simp [joinNl], by simp, by simp⟩
      | cons b bs =>
        exact ⟨[], '\n' :: joinNl (b :: bs), by simp [joinNl], by simp,
          Or.inr ⟨joinNl (b :: bs), rfl⟩⟩
    · obtain ⟨X, Y, h1, h2, h3⟩ := ih h'
      have has : as ≠ [] := by rintro rfl; simp at h'
      cases as with
      | nil => exact absurd rfl has
      | cons b bs =>
        refine ⟨a ++ '\n' :: X, Y, ?_, ?_, h3⟩
        · simp [joinNl, h1]
        · rcases h2 with rfl | ⟨X', rfl⟩
          · exact Or.inr ⟨a, by simp⟩
          · exact Or.inr ⟨a ++ '\n' :: X', by simp⟩

/-- C10: the renamer's author-presence test is a substring search over the
whole (date-substituted) content: when `author:` occurs anywhere in it — in
particular only in the body — no author line is inserted and the output is
exactly the date-substituted content. -/
theorem author_check_is_global_substring {content pre span d post : List Char}
    (hf : findDate content = some (pre, span, d, post))
    (ha : containsSub authorColon (pre ++ dateSp ++ d ++ post) = true) :
    processContent content = some (d, pre ++ dateSp ++ d ++ post) := by
  unfold processContent
  rw [show findDate content = some (pre, span, d, post) from hf]
  simp only [← List.append_assoc] at ha ⊢
  rw [ha]
  simp

theorem author_check_is_global_substring_witness :
    processContent c10Content = some (exDate, [] ++ dateSp ++ exDate ++ c10Post) ∧
      containsSub authorColon ([] ++ dateSp ++ exDate ++ c10Post) = true := by
  exact ⟨@author_check_is_global_substring c10Content [] c10Span exDate c10Post
    (by decide) (by decide), by decide⟩

theorem isLineBreakCh_eq_false_of_range {c : Char} (h1 : 32 ≤ c.toNat)
    (h2 : c.toNat ≤ 122) : isLineBreakCh c = false := by
  unfold isLineBreakCh
  simp only [Bool.or_eq_false_iff, beq_eq_false_iff_ne, ne_eq]
  omega

theorem dateSpD_breakfree {d : List Char}
    (hd : ∀ c ∈ d, isDigitCh c = true ∨ c = '-') :
    ∀ c ∈ dateSp ++ d, isLineBreakCh c = false := by
  intro c hc
  rcases List.mem_append.mp hc with h | h
  · fin_cases h <;> decide
  · rcases hd c h with hdg | rfl
    · have : 48 ≤ c.toNat ∧ c.toNat ≤ 57 := by
        simpa [isDigitCh] using hdg
      exact isLineBreakCh_eq_false_of_range (by omega) (by omega)
    · decide

theorem splitlines_has_dateline {pre d post : List Char}
    (hpre : pre = [] ∨ ∃ p', pre = p' ++ ['\n'])
    (hd : ∀ c ∈ d, isDigitCh c = true ∨ c = '-') :
    ∃ dl, dl ∈ splitlinesPy (pre ++ dateSp ++ d ++ post) ∧
      startsWithL dateColon dl = true := by
  have hbf := dateSpD_breakfree hd
  have hcore : ∃ dl, dl ∈ splitlinesPy ((dateSp ++ d) ++ post) ∧
      startsWithL dateColon dl = true := by
    obtain ⟨w, ls, hw⟩ :=
      splitlinesPy_breakfree_head (x := dateSp ++ d) (r := post) (by simp [dateSp]) hbf
    refine ⟨(dateSp ++ d) ++ w, ?_, ?_⟩
    · rw [hw]
      exact List.mem_cons_self _ _
    have : (dateSp ++ d) ++ w = dateColon ++ (' ' :: (d ++ w)) := by
      simp [dateSp, dateColon]
    rw [this]
    exact startsWithL_append_self _ _
  rcases hpre with rfl | ⟨p0, rfl⟩
  · simpa [List.append_assoc] using hcore
  · obtain ⟨dl, hmem, hst⟩ := hcore
    refine ⟨dl, ?_, hst⟩
    have hre : (p0 ++ ['\n']) ++ dateSp ++ d ++ post =
        p0 ++ '\n' :: ((dateSp ++ d) ++ post) := by
      simp [List.append_assoc]
    rw [hre, splitlinesPy_append_nl]
    exact List.mem_append_right _ hmem

theorem splitlines_has_exact_dateline {pre d post : List Char}
    (hpre : pre = [] ∨ ∃ p', pre = p' ++ ['\n'])
    (hd : ∀ c ∈ d, isDigitCh c = true ∨ c = '-')
    (hpost : post = [] ∨ ∃ p', post = '\n' :: p') :
    (dateSp ++ d) ∈ splitlinesPy (pre ++ dateSp ++ d ++ post) := by
  have hbf := dateSpD_breakfree hd
  have hcore : (dateSp ++ d) ∈ splitlinesPy ((dateSp ++ d) ++ post) := by
    rcases hpost with rfl | ⟨p', rfl⟩
    · rw [List.append_nil,
        splitlinesPy_breakfree (by simp [dateSp]) hbf]
      simp
    · rw [splitlinesPy_append_nl, splitlinesPy_breakfree_nl hbf]
      simp
  rcases hpre with rfl | ⟨p0, rfl⟩
  · simpa [List.append_assoc] using hcore
  · have hre : (p0 ++ ['\n']) ++ dateSp ++ d ++ post =
        p0 ++ '\n' :: ((dateSp ++ d) ++ post) := by
      simp [List.append_assoc]
    rw [hre, splitlinesPy_append_nl]
    exact List.mem_append_right _ hcore

/-- C4 (amended): for a processed document in which `author:` does not occur,
exactly one author line is inserted, and it lands immediately after the first
line that starts with `date:` — which is the regex-matched line only when no
earlier line starts with `date:`. -/
theorem author_inserted_after_first_date_prefixed_line
    (content pre span d post : List Char)
    (hf : findDate content = some (pre, span, d, post))
    (hno : containsSub authorColon (pre ++ dateSp ++ d ++ post) = false) :
    ∃ A dl B, splitlinesPy (pre ++ dateSp ++ d ++ post) = A ++ dl :: B ∧
      (∀ a ∈ A, startsWithL dateColon a = false) ∧
      startsWithL dateColon dl = true ∧
      processContent content = some (d, joinNl (A ++ dl :: AUTHOR_LINE :: B)) := by
  obtain ⟨hsp, hpre, hd⟩ := findDate_spec hf
  obtain ⟨dl0, hmem, hst⟩ := splitlines_has_dateline hpre hd
  obtain ⟨A, dl, B, hdecomp, hA, hdl⟩ :=
    exists_first_split (startsWithL dateColon) _ ⟨dl0, hmem, hst⟩
  refine ⟨A, dl, B, hdecomp, hA, hdl, ?_⟩
  unfold processContent
  rw [hf]
  simp only [hno, Bool.false_eq_true, if_false, hdecomp,
    insertAuthor_split hA hdl]

theorem author_inserted_after_first_date_prefixed_line_witness :
    ∃ A dl B, splitlinesPy ([] ++ dateSp ++ exDate ++ ('\n' :: c4wBody)) =
        A ++ dl :: B ∧
      (∀ a ∈ A, startsWithL dateColon a = false) ∧
      startsWithL dateColon dl = true ∧
      processContent c4wContent =
        some (exDate, joinNl (A ++ dl :: AUTHOR_LINE :: B)) :=
  author_inserted_after_first_date_prefixed_line c4wContent [] dateLineEx exDate
    ('\n' :: c4wBody) (by decide) (by decide)

/-- C5: when the regex match runs to the end of its line (in particular for a
`date: <date> <time>` line, whose time the match swallows), the rewritten
content carries `date: <date>` as a whole line: nothing of the time is left. -/
theorem date_line_time_discarded (content pre span d post : List Char)
    (hf : findDate content = some (pre, span, d, post))
    (hpost : post = [] ∨ ∃ p', post = '\n' :: p') :
    ∃ out X Y, processContent content = some (d, out) ∧
      out = X ++ (dateSp ++ d) ++ Y ∧
      (X = [] ∨ ∃ X', X = X' ++ ['\n']) ∧
      (Y = [] ∨ ∃ Y', Y = '\n' :: Y') := by
  obtain ⟨hsp, hpre, hd⟩ := findDate_spec hf
  by_cases ha : containsSub authorColon (pre ++ dateSp ++ d ++ post) = true
  · refine ⟨pre ++ dateSp ++ d ++ post, pre, post,
      author_check_is_global_substring hf ha, by simp [List.append_assoc],
      hpre, hpost⟩
  · have hno : containsSub authorColon (pre ++ dateSp ++ d ++ post) = false :=
      eq_false_of_ne_true ha
    have hmem := splitlines_has_exact_dateline hpre hd hpost
    have hmem2 := insertAuthor_mem hmem
    obtain ⟨X, Y, hjoin, hX, hY⟩ := joinNl_mem_split hmem2
    refine ⟨joinNl (insertAuthor (splitlinesPy (pre ++ dateSp ++ d ++ post))),
      X, Y, ?_, ?_, hX, hY⟩
    · unfold processContent
      rw [hf]
      simp only [hno, Bool.false_eq_true, if_false]
    · simp only [← List.append_assoc] at hjoin ⊢
      exact hjoin

theorem date_line_time_discarded_witness :
    (findDate c5Content = some ([], c5Span, exDate, c5Post) ∧
      c5Post = '\n' :: c5PostTail) ∧
    ∃ out X Y, processContent c5Content = some (exDate, out) ∧
      out = X ++ (dateSp ++ exDate) ++ Y ∧
      (X = [] ∨ ∃ X', X = X' ++ ['\n']) ∧
      (Y = [] ∨ ∃ Y', Y = '\n' :: Y') :=
  ⟨⟨by decide, by decide⟩,
    date_line_time_discarded c5Content [] c5Span exDate c5Post (by decide)
      (Or.inr ⟨c5PostTail, by decide⟩)⟩

/-- C4 (counterexample): in `c4Content` the regex matches the second line
(`date: x` does not match), yet the author line is inserted after the first
`date:`-prefixed line, not after the matched one. -/
theorem author_insertion_point_cex :
    findDate c4Content = some (dateXLine ++ ['\n'], dateLineEx, exDate, ['\n']) ∧
      processContent c4Content = some (exDate, c4OutActual) ∧
      splitlinesPy c4OutActual = [dateXLine, AUTHOR_LINE, dateLineEx] ∧
      c4OutActual ≠ c4OutClaimed := by
  decide

/-- C1 (counterexample): on the spec's end-to-end example the run does not
produce a file named `2024-01-05-post.md` at all. -/
theorem renamer_example_cex :
    lookupFile (runRenamer [(ex1Name, ex1Content)]) ex1NameClaimed = none := by
  decide

/-- C1 (amended): the run on the example produces
`2024-01-05-2024-01-05-post.md` — the date is prepended to the full original
stem — whose content has `date: 2024-01-05` immediately followed by the
author line, and the original `.mdx` file is gone. -/
theorem renamer_example_amended :
    runRenamer [(ex1Name, ex1Content)] = [(ex1OutName, ex1OutContent)] ∧
      lookupFile (runRenamer [(ex1Name, ex1Content)]) ex1Name = none ∧
      containsSub ex1DatePair ex1OutContent = true := by
  decide

/-- C2 (counterexample): for `a.mdx.mdx` the code removes every `".mdx"`
occurrence, so the produced name is `2024-01-05-a.md`, not the claimed
`2024-01-05-a.mdx.md`. -/
theorem filename_convention_cex :
    runRenamer [(c2Name, c2Content)] = [(c2OutActualName, c2OutContent)] ∧
      lookupFile (runRenamer [(c2Name, c2Content)]) c2OutClaimedName = none ∧
      c2OutActualName ≠ c2OutClaimedName := by
  decide

theorem startsWithL_mdx_shape {l : List Char}
    (h : startsWithL mdxExt l = true) :
    ∃ rest, l = '.' :: 'm' :: 'd' :: 'x' :: rest := by
  obtain ⟨r, hr⟩ := startsWithL_eq_append h
  exact ⟨r, hr⟩

theorem removeMdxAll_append {s : List Char}
    (h : containsSub mdxExt s = false) :
    removeMdxAll (s ++ mdxExt) = s := by
  induction s with
  | nil => decide
  | cons c s' ih =>
    have h1 : startsWithL mdxExt (c :: s') = false := by
      simp only [containsSub, Bool.or_eq_false_iff] at h
      exact h.1
    have h2 : containsSub mdxExt s' = false := by
      simp only [containsSub, Bool.or_eq_false_iff] at h
      exact h.2
    have hnostart : startsWithL mdxExt ((c :: s') ++ mdxExt) = false := by
      by_contra hb
      simp only [Bool.not_eq_false] at hb
      obtain ⟨r, hr⟩ := startsWithL_mdx_shape hb
      rcases s' with _ | ⟨a, _ | ⟨b, _ | ⟨e, s4⟩⟩⟩
      · simp [mdxExt] at hr
      · simp [mdxExt] at hr
      · simp [mdxExt] at hr
      · have h4 : startsWithL mdxExt (c :: a :: b :: e :: s4) = true :=
          startsWithL_of_append (x := c :: a :: b :: e :: s4)
            (by simpa using hb) (by simp [mdxExt])
        exact absurd h4 (by simp [h1])
    have hside : ∀ (rest1 : List Char), c = '.' →
        s' ++ mdxExt = 'm' :: 'd' :: 'x' :: rest1 → False := by
      intro rest1 hc hrest
      have hsw : startsWithL mdxExt ((c :: s') ++ mdxExt) = true := by
        show startsWithL mdxExt (c :: (s' ++ mdxExt)) = true
        rw [hrest, hc]
        exact startsWithL_append_self mdxExt rest1
      exact absurd hsw (by simp only [Bool.not_eq_true]; exact hnostart)
    rw [List.cons_append, removeMdxAll.eq_3 c _ hside, ih h2]

/-- C2 (amended): the produced name is
`<date>-<filename with every ".mdx" occurrence removed>.md`; when `".mdx"`
occurs in the name only as its final extension this is `<date>-<stem>.md`. -/
theorem filename_convention_amended (stem content dte c2 : List Char)
    (hstem : containsSub mdxExt stem = false)
    (hproc : processContent content = some (dte, c2)) :
    renamerStep [(stem ++ mdxExt, content)] (stem ++ mdxExt) =
      [(dte ++ '-' :: (stem ++ mdExt), c2)] := by
  have hname : newFilename (stem ++ mdxExt) dte = dte ++ '-' :: (stem ++ mdExt) := by
    unfold newFilename
    rw [removeMdxAll_append hstem]
  have hne : stem ++ mdxExt ≠ dte ++ '-' :: (stem ++ mdExt) := by
    intro he
    have hg := congrArg List.getLast? he
    rw [List.getLast?_append, List.getLast?_append,
      show ('-' :: (stem ++ mdExt)) = ('-' :: stem) ++ mdExt from by simp,
      List.getLast?_append] at hg
    simp [mdxExt, mdExt] at hg
  simp [renamerStep, endsWithL_append_self, lookupFile, hproc, hname,
    writeFile, removeFile, hne]

theorem filename_convention_amended_witness :
    (containsSub mdxExt postStem = false ∧
      processContent c2Content = some (exDate, c2OutContent)) ∧
    renamerStep [(postStem ++ mdxExt, c2Content)] (postStem ++ mdxExt) =
      [(exDate ++ '-' :: (postStem ++ mdExt), c2OutContent)] :=
  ⟨⟨by decide, by decide⟩,
    filename_convention_amended postStem c2Content exDate c2OutContent
      (by decide) (by decide)⟩

theorem dictSet_keys {fm : FrontMatter} {k : List Char} {v w : YVal}
    (h : lookupVal fm k = some w) :
    (dictSet fm k v).map Prod.fst = fm.map Prod.fst := by
  induction fm with
  | nil => simp [lookupVal] at h
  | cons p rest ih =>
    obtain ⟨k0, v0⟩ := p
    by_cases hk : k0 = k
    · simp [dictSet, hk]
    · simp only [lookupVal, if_neg hk] at h
      simp [dictSet, hk, ih h]

theorem dictSet_lookup_ne {fm : FrontMatter} {k k' : List Char} {v : YVal}
    (h : k' ≠ k) :
    lookupVal (dictSet fm k v) k' = lookupVal fm k' := by
  induction fm with
  | nil =>
    simp only [dictSet, lookupVal]
    rw [if_neg (fun he => h he.symm)]
  | cons p rest ih =>
    obtain ⟨k0, v0⟩ := p
    by_cases hk : k0 = k
    · subst hk
      simp only [dictSet, if_pos rfl, lookupVal]
      rw [if_neg (fun he => h he.symm), if_neg (fun he => h he.symm)]
    · simp [dictSet, hk, lookupVal, ih]

theorem dictSet_lookup_self {fm : FrontMatter} {k : List Char} {v : YVal} :
    lookupVal (dictSet fm k v) k = some v := by
  induction fm with
  | nil => simp [dictSet, lookupVal]
  | cons p rest ih =>
    obtain ⟨k0, v0⟩ := p
    by_cases hk : k0 = k
    · simp [dictSet, hk, lookupVal]
    · simp [dictSet, hk, lookupVal, ih]

/-- C3: when the tag normalizer rewrites a document, the new content is
marker + dump of the updated mapping + marker + the untouched original body;
the updated mapping keeps every key in its original position, keeps every
non-`tags` value, and holds the normalized list under `tags`. -/
theorem tags_rewrite_frame (parse : List Char → Option FrontMatter)
    (dump : FrontMatter → List Char) (content fmStr body : List Char)
    (fm fm2 : FrontMatter)
    (hm : matchFrontMatter content = some (fmStr, body))
    (hp : parse fmStr = some fm)
    (hr : processFrontMatter fm = .rewritten fm2) :
    normalizeFile parse dump content =
      .written (fmMarker ++ dump fm2 ++ sepMarker ++ body) ∧
    fm2.map Prod.fst = fm.map Prod.fst ∧
    (∀ k, k ≠ tagsKey → lookupVal fm2 k = lookupVal fm k) ∧
    ∃ vs ss, lookupVal fm tagsKey = some (.list vs) ∧ tagStrings vs = some ss ∧
      lookupVal fm2 tagsKey =
        some (.list (List.map (fun s0 => YVal.str (normalizeTag s0)) ss)) := by
  refine ⟨by simp [normalizeFile, hm, hp, hr], ?_⟩
  unfold processFrontMatter at hr
  split at hr
  · rename_i vs hl
    split at hr
    · simp at hr
    · rename_i ss hss
      split at hr
      · simp at hr
      · injection hr with hfm2
        subst hfm2
        refine ⟨dictSet_keys hl, fun k hk => dictSet_lookup_ne hk, vs, ss,
          hl, hss, ?_⟩
        rw [dictSet_lookup_self]
  · simp at hr
  · simp at hr

theorem tags_rewrite_frame_witness :
    normalizeFile (parseConst fm3) (dumpConst dumped3) content3 =
      .written (fmMarker ++ dumpConst dumped3 fm3N ++ sepMarker ++ body3) ∧
    lookupVal fm3N titleKey = lookupVal fm3 titleKey := by
  have h := tags_rewrite_frame (parseConst fm3) (dumpConst dumped3) content3
    fmStr3 body3 fm3 fm3N (by decide) rfl rfl
  exact ⟨h.1, h.2.2.1 titleKey (by decide)⟩

/-- C8: a renamer target with no date match, and a normalizer target with no
front-matter marker or with unparsable front matter, leave the directory —
and so the file — exactly as it was, and the run continues with the
remaining entries. -/
theorem skip_leaves_file_untouched :
    (∀ (d : FsDir) (name content : List Char) (rest : List (List Char)),
      endsWithL mdxExt name = true → lookupFile d name = some content →
      findDate content = none →
      renamerStep d name = d ∧
        List.foldl renamerStep d (name :: rest) =
          List.foldl renamerStep d rest) ∧
    (∀ (parse : List Char → Option FrontMatter)
      (dump : FrontMatter → List Char) (d : FsDir)
      (name content : List Char) (rest : List (List Char)),
      isTargetFile name = true → lookupFile d name = some content →
      (matchFrontMatter content = none ∨
        ∃ fmStr body, matchFrontMatter content = some (fmStr, body) ∧
          parse fmStr = none) →
      normalizerStep parse dump d name = some d ∧
        runNormalizerAux parse dump d (name :: rest) =
          runNormalizerAux parse dump d rest) := by
  constructor
  · intro d name content rest h1 h2 h3
    have hstep : renamerStep d name = d := by
      simp [renamerStep, h1, h2, processContent, h3]
    exact ⟨hstep, by simp [List.foldl, hstep]⟩
  · intro parse dump d name content rest ht hl hcase
    have hstep : normalizerStep parse dump d name = some d := by
      rcases hcase with hm | ⟨fmStr, body, hm, hp⟩
      · simp [normalizerStep, ht, hl, normalizeFile, hm]
      · simp [normalizerStep, ht, hl, normalizeFile, hm, hp]
    exact ⟨hstep, by simp [runNormalizerAux, hstep]⟩

theorem skip_leaves_file_untouched_witness :
    (renamerStep [(name8x, content8)] name8x = [(name8x, content8)] ∧
      List.foldl renamerStep [(name8x, content8)] [name8x] =
        List.foldl renamerStep [(name8x, content8)] []) ∧
    (normalizerStep parseNone (dumpConst dumped3) [(name8, content8)] name8 =
        some [(name8, content8)] ∧
      runNormalizerAux parseNone (dumpConst dumped3) [(name8, content8)]
          [name8] =
        runNormalizerAux parseNone (dumpConst dumped3) [(name8, content8)]
          []) :=
  ⟨skip_leaves_file_untouched.1 [(name8x, content8)] name8x content8 []
      (by decide) (by decide) (by decide),
    skip_leaves_file_untouched.2 parseNone (dumpConst dumped3)
      [(name8, content8)] name8 content8 [] (by decide) (by decide)
      (Or.inl (by decide))⟩

theorem tagStrings_eq_none {vs : List YVal} {v : YVal} (hv : v ∈ vs)
    (hs : isStrVal v = false) : tagStrings vs = none := by
  induction vs with
  | nil => simp at hv
  | cons w ws ih =>
    rcases List.mem_cons.mp hv with rfl | hv'
    · cases v <;> simp_all [tagStrings, isStrVal]
    · cases w with
      | str s0 => simp [tagStrings, ih hv']
      | intVal n => simp [tagStrings]
      | boolVal b => simp [tagStrings]
      | nullVal => simp [tagStrings]
      | list vs0 => simp [tagStrings]
      | dict f0 => simp [tagStrings]

/-- C9: a parsed `tags` list holding a non-string element makes the
normalizer crash on that file (uncaught `AttributeError` in
`normalize_tag`), aborting the whole run. -/
theorem nonstring_tag_crashes (parse : List Char → Option FrontMatter)
    (dump : FrontMatter → List Char) (d : FsDir)
    (name content fmStr body : List Char) (fm : FrontMatter)
    (vs : List YVal) (v : YVal) (rest : List (List Char))
    (ht : isTargetFile name = true)
    (hl : lookupFile d name = some content)
    (hm : matchFrontMatter content = some (fmStr, body))
    (hp : parse fmStr = some fm)
    (htags : lookupVal fm tagsKey = some (.list vs))
    (hv : v ∈ vs) (hs : isStrVal v = false) :
    normalizeFile parse dump content = .crashed ∧
      runNormalizerAux parse dump d (name :: rest) = none := by
  have hpf : processFrontMatter fm = .typeError := by
    simp [processFrontMatter, htags, tagStrings_eq_none hv hs]
  have hnf : normalizeFile parse dump content = .crashed := by
    simp [normalizeFile, hm, hp, hpf]
  exact ⟨hnf, by simp [runNormalizerAux, normalizerStep, ht, hl, hnf]⟩

theorem nonstring_tag_crashes_witness :
    normalizeFile (parseConst fm9) (dumpConst dumped3) content9 = .crashed ∧
      runNormalizerAux (parseConst fm9) (dumpConst dumped3)
        [(name8, content9)] [name8] = none :=
  nonstring_tag_crashes (parseConst fm9) (dumpConst dumped3)
    [(name8, content9)] name8 content9 ("tags:\n- 2024".data) ("b".data) fm9
    [YVal.intVal 2024] (YVal.intVal 2024) [] (by decide) (by decide)
    (by decide) rfl rfl (by simp) rfl

theorem lowerChar_toNat {c : Char} (h1 : 65 ≤ c.toNat) (h2 : c.toNat ≤ 90) :
    (lowerChar c).toNat = c.toNat + 32 := by
  have hv : Nat.isValidChar (c.toNat + 32) := by
    unfold Nat.isValidChar
    omega
  unfold lowerChar
  rw [if_pos ⟨h1, h2⟩]
  unfold Char.toNat at *
  unfold UInt32.toNat at *
  simp only [Char.ofNat, hv, dif_pos]
  simp [BitVec.toNat_ofNatLt, Char.ofNatAux]

theorem lowerChar_out {c : Char} (h : ¬(65 ≤ c.toNat ∧ c.toNat ≤ 90)) :
    lowerChar c = c := by
  unfold lowerChar
  rw [if_neg h]

theorem lowerChar_idem (c : Char) : lowerChar (lowerChar c) = lowerChar c := by
  by_cases h : 65 ≤ c.toNat ∧ c.toNat ≤ 90
  · have ht := lowerChar_toNat h.1 h.2
    exact lowerChar_out (by omega)
  · rw [lowerChar_out h, lowerChar_out h]

theorem isPySpace_lowerChar (c : Char) :
    isPySpace (lowerChar c) = isPySpace c := by
  by_cases h : 65 ≤ c.toNat ∧ c.toNat ≤ 90
  · have ht := lowerChar_toNat h.1 h.2
    have hl : isPySpace (lowerChar c) = false := by
      unfold isPySpace
      simp only [Bool.or_eq_false_iff, beq_eq_false_iff_ne, ne_eq]
      omega
    have hr : isPySpace c = false := by
      unfold isPySpace
      simp only [Bool.or_eq_false_iff, beq_eq_false_iff_ne, ne_eq]
      omega
    rw [hl, hr]
  · rw [lowerChar_out h]

theorem pySplitWsAux_allws {w : List Char}
    (hw : ∀ c ∈ w, isPySpace c = true) (acc : List Char) :
    pySplitWsAux acc w = if acc = [] then [] else [acc.reverse] := by
  induction w generalizing acc with
  | nil => rfl
  | cons s w' ih =>
    have hs : isPySpace s = true := hw s (by simp)
    have ih' := ih (fun c hc => hw c (by simp [hc])) []
    simp only [if_pos rfl] at ih'
    by_cases ha : acc = []
    · subst ha
      simp [pySplitWsAux, hs, ih']
    · simp [pySplitWsAux, hs, ha, ih']

theorem pySplitWsAux_append_ws {w : List Char}
    (hw : ∀ c ∈ w, isPySpace c = true) :
    ∀ (l acc : List Char), pySplitWsAux acc (l ++ w) = pySplitWsAux acc l := by
  intro l
  induction l with
  | nil =>
    intro acc
    rw [List.nil_append, pySplitWsAux_allws hw acc]
    rfl
  | cons c l' ih =>
    intro acc
    by_cases hc : isPySpace c = true
    · by_cases ha : acc = []
      · subst ha
        simp only [List.cons_append, pySplitWsAux, hc, if_true, if_pos rfl]
        exact ih []
      · simp only [List.cons_append, pySplitWsAux, hc, if_true, if_neg ha,
          List.append_eq]
        rw [ih []]
    · simp only [List.cons_append, pySplitWsAux, hc, List.append_eq,
        Bool.false_eq_true, if_false]
      exact ih (c :: acc)

theorem pySplitWs_dropWhile (l : List Char) :
    pySplitWsAux [] (List.dropWhile isPySpace l) = pySplitWsAux [] l := by
  induction l with
  | nil => rfl
  | cons c l' ih =>
    by_cases hc : isPySpace c = true
    · rw [List.dropWhile_cons, if_pos hc, ih]
      simp [pySplitWsAux, hc]
    · rw [List.dropWhile_cons, if_neg hc]

theorem pySplitWs_strip (l : List Char) :
    pySplitWs (pyStrip l) = pySplitWs l := by
  unfold pySplitWs pyStrip
  set y := List.dropWhile isPySpace l with hy
  have hdec : y = (List.dropWhile isPySpace y.reverse).reverse ++
      (List.takeWhile isPySpace y.reverse).reverse := by
    conv_lhs => rw [← List.reverse_reverse y,
      ← List.takeWhile_append_dropWhile isPySpace y.reverse]
    rw [List.reverse_append]
  have hws : ∀ c ∈ (List.takeWhile isPySpace y.reverse).reverse,
      isPySpace c = true := by
    intro c hc
    exact List.mem_takeWhile_imp (List.mem_reverse.mp hc)
  calc pySplitWsAux [] (List.dropWhile isPySpace y.reverse).reverse
      = pySplitWsAux [] ((List.dropWhile isPySpace y.reverse).reverse ++
          (List.takeWhile isPySpace y.reverse).reverse) :=
        (pySplitWsAux_append_ws hws _ []).symm
    _ = pySplitWsAux [] y := by rw [← hdec]
    _ = pySplitWsAux [] l := pySplitWs_dropWhile l

theorem pyStrip_map_lower (l : List Char) :
    pyStrip (List.map lowerChar l) = List.map lowerChar (pyStrip l) := by
  have hpred : (isPySpace ∘ lowerChar) = isPySpace := by
    funext c
    exact isPySpace_lowerChar c
  unfold pyStrip
  rw [List.dropWhile_map, hpred, ← List.map_reverse, List.dropWhile_map,
    hpred, ← List.map_reverse]

theorem pySplitWsAux_good :
    ∀ (l acc : List Char), (∀ c ∈ acc, isPySpace c = false) →
      ∀ w ∈ pySplitWsAux acc l, w ≠ [] ∧ ∀ c ∈ w, isPySpace c = false := by
  intro l
  induction l with
  | nil =>
    intro acc hacc w hw
    simp only [pySplitWsAux] at hw
    split at hw
    · simp at hw
    · rename_i ha
      simp only [List.mem_singleton] at hw
      subst hw
      exact ⟨by simpa using ha, fun c hc => hacc c (List.mem_reverse.mp hc)⟩
  | cons c l' ih =>
    intro acc hacc w hw
    simp only [pySplitWsAux] at hw
    by_cases hc : isPySpace c = true
    · simp only [hc, if_true] at hw
      split at hw
      · exact ih [] (by simp) w hw
      · rename_i ha
        rcases List.mem_cons.mp hw with rfl | hw'
        · exact ⟨by simpa using ha, fun c0 hc0 => hacc c0 (List.mem_reverse.mp hc0)⟩
        · exact ih [] (by simp) w hw'
    · simp only [hc, Bool.false_eq_true, if_false] at hw
      refine ih (c :: acc) ?_ w hw
      intro c0 hc0
      rcases List.mem_cons.mp hc0 with rfl | hc0'
      · exact eq_false_of_ne_true hc
      · exact hacc c0 hc0'

theorem pySplitWsAux_chars :
    ∀ (l acc w : List Char) (c0 : Char), w ∈ pySplitWsAux acc l → c0 ∈ w →
      c0 ∈ acc ∨ c0 ∈ l := by
  intro l
  induction l with
  | nil =>
    intro acc w c0 hw hc0
    simp only [pySplitWsAux] at hw
    split at hw
    · simp at hw
    · simp only [List.mem_singleton] at hw
      subst hw
      exact Or.inl (List.mem_reverse.mp hc0)
  | cons c l' ih =>
    intro acc w c0 hw hc0
    simp only [pySplitWsAux] at hw
    by_cases hc : isPySpace c = true
    · simp only [hc, if_true] at hw
      split at hw
      · rcases ih [] w c0 hw hc0 with h | h
        · simp at h
        · exact Or.inr (by simp [h])
      · rcases List.mem_cons.mp hw with rfl | hw'
        · exact Or.inl (List.mem_reverse.mp hc0)
        · rcases ih [] w c0 hw' hc0 with h | h
          · simp at h
          · exact Or.inr (by simp [h])
    · simp only [hc, Bool.false_eq_true, if_false] at hw
      rcases ih (c :: acc) w c0 hw hc0 with h | h
      · rcases List.mem_cons.mp h with rfl | h'
        · exact Or.inr (by simp)
        · exact Or.inl h'
      · exact Or.inr (by simp [h])

theorem pySplitWsAux_word {w : List Char}
    (hw : ∀ c ∈ w, isPySpace c = false) :
    ∀ (r acc : List Char),
      pySplitWsAux acc (w ++ r) = pySplitWsAux (w.reverse ++ acc) r := by
  induction w with
  | nil => intro r acc; simp
  | cons c w' ih =>
    intro r acc
    have hc : isPySpace c = false := hw c (by simp)
    simp only [List.cons_append, pySplitWsAux, hc, Bool.false_eq_true,
      if_false, List.append_eq]
    rw [ih (fun c0 hc0 => hw c0 (by simp [hc0])) r (c :: acc)]
    simp

theorem pySplitWs_joinSpace {ws : List (List Char)}
    (hws : ∀ w ∈ ws, w ≠ [] ∧ ∀ c ∈ w, isPySpace c = false) :
    pySplitWs (joinSpace ws) = ws := by
  induction ws with
  | nil => rfl
  | cons w ws' ih =>
    obtain ⟨hne, hnws⟩ := hws w (by simp)
    cases ws' with
    | nil =>
      show pySplitWsAux [] (joinSpace [w]) = [w]
      unfold joinSpace
      rw [show w = w ++ [] from by simp, pySplitWsAux_word hnws [] []]
      simp only [pySplitWsAux]
      rw [if_neg (by simpa using hne)]
      simp
    | cons w2 ws'' =>
      show pySplitWsAux [] (joinSpace (w :: w2 :: ws'')) = w :: w2 :: ws''
      rw [show joinSpace (w :: w2 :: ws'') = w ++ ' ' :: joinSpace (w2 :: ws'')
        from rfl]
      rw [pySplitWsAux_word hnws _ []]
      simp only [pySplitWsAux, isPySpace]
      rw [if_pos (by decide), if_neg (by simpa using hne)]
      simp only [List.append_nil, List.reverse_reverse]
      rw [show pySplitWsAux [] (joinSpace (w2 :: ws'')) = w2 :: ws''
        from ih (fun x hx => hws x (by simp [hx]))]

theorem map_lower_joinSpace (ws : List (List Char)) :
    List.map lowerChar (joinSpace ws) =
      joinSpace (ws.map (List.map lowerChar)) := by
  induction ws with
  | nil => rfl
  | cons w ws' ih =>
    cases ws' with
    | nil => rfl
    | cons w2 ws'' =>
      rw [show joinSpace (w :: w2 :: ws'') = w ++ ' ' :: joinSpace (w2 :: ws'')
        from rfl]
      simp only [List.map_append, List.map_cons, ih]
      rfl

theorem normalizeTag_eq (t : List Char) :
    normalizeTag t = joinSpace (pySplitWs (List.map lowerChar t)) := by
  unfold normalizeTag
  rw [← pyStrip_map_lower, pySplitWs_strip]

theorem normalizeTag_idem (t : List Char) :
    normalizeTag (normalizeTag t) = normalizeTag t := by
  rw [normalizeTag_eq t, normalizeTag_eq]
  set W := pySplitWs (List.map lowerChar t) with hW
  have hgood : ∀ w ∈ W, w ≠ [] ∧ ∀ c ∈ w, isPySpace c = false :=
    pySplitWsAux_good (List.map lowerChar t) [] (by simp)
  have hfix : W.map (List.map lowerChar) = W := by
    rw [show W.map (List.map lowerChar) = W.map id from ?_, List.map_id]
    apply List.map_congr_left
    intro w hw
    rw [id_eq]
    apply List.map_congr_left ?_ |>.trans (List.map_id w)
    intro c hc
    rcases pySplitWsAux_chars (List.map lowerChar t) [] w c hw hc with h | h
    · simp at h
    · obtain ⟨c0, _, rfl⟩ := List.mem_map.mp h
      exact lowerChar_idem c0
  rw [map_lower_joinSpace, hfix, pySplitWs_joinSpace hgood]

/-- C6: `normalize_tag` is idempotent, and a document whose parsed tag list
is already normalized element-wise causes no write: the per-file outcome is
`noWrite` and the directory is left exactly as it was. -/
theorem normalization_idempotent :
    (∀ t : List Char, normalizeTag (normalizeTag t) = normalizeTag t) ∧
    (∀ (parse : List Char → Option FrontMatter)
      (dump : FrontMatter → List Char)
      (content fmStr body : List Char) (fm : FrontMatter) (vs : List YVal)
      (ss : List (List Char)),
      matchFrontMatter content = some (fmStr, body) →
      parse fmStr = some fm →
      lookupVal fm tagsKey = some (.list vs) →
      tagStrings vs = some ss →
      (∀ s0 ∈ ss, normalizeTag s0 = s0) →
      normalizeFile parse dump content = .noWrite ∧
        ∀ (d : FsDir) (name : List Char), isTargetFile name = true →
          lookupFile d name = some content →
          normalizerStep parse dump d name = some d) := by
  refine ⟨normalizeTag_idem, ?_⟩
  intro parse dump content fmStr body fm vs ss hm hp hl hts hn
  have hmap : List.map normalizeTag ss = ss :=
    (List.map_congr_left (fun s0 hs0 => by rw [hn s0 hs0, id_eq])).trans
      (List.map_id ss)
  have hpf : processFrontMatter fm = .unchanged := by
    simp [processFrontMatter, hl, hts, hmap]
  have hnf : normalizeFile parse dump content = .noWrite := by
    simp [normalizeFile, hm, hp, hpf]
  exact ⟨hnf, fun d name ht hl' => by simp [normalizerStep, ht, hl', hnf]⟩

theorem normalization_idempotent_witness :
    normalizeTag (normalizeTag cloudTag) = normalizeTag cloudTag ∧
      normalizeFile (parseConst fm6) (dumpConst dumped3) content6 =
        .noWrite ∧
      normalizerStep (parseConst fm6) (dumpConst dumped3)
        [(name8, content6)] name8 = some [(name8, content6)] := by
  have h := normalization_idempotent.2 (parseConst fm6) (dumpConst dumped3)
    content6 fmStr6 body6 fm6 [YVal.str devOpsNorm] [devOpsNorm]
    (by decide) rfl rfl rfl (by decide)
  exact ⟨normalization_idempotent.1 cloudTag, h.1,
    h.2 [(name8, content6)] name8 (by decide) (by decide)⟩

/-- C7: `normalize_tag` maps a string to its whitespace-separated words,
lowercased and joined by single spaces — so it trims outer whitespace and
collapses internal runs; mapped over a list it preserves length and order,
and on the spec's example it yields the predicted tags. -/
theorem normalizeTag_spec :
    (∀ t : List Char, normalizeTag t =
      joinSpace (pySplitWs (List.map lowerChar t))) ∧
    (∀ ts : List (List Char),
      (List.map normalizeTag ts).length = ts.length) ∧
    List.map normalizeTag [devOpsTag, cloudTag] = [devOpsNorm, cloudNorm] :=
  ⟨normalizeTag_eq, fun ts => List.length_map ts normalizeTag, by decide⟩
